import Mathlib

/-!
Verification of the skeleton-based connectivity inference engine
(`src/ocr_approach/skeleton_path_mapping.py`).

The Python module is embedded shallowly: pixel coordinates are pairs of
integers, the skeleton is a finite set of pixels (the source builds a Python
`set` of coordinates), Euclidean lengths are real numbers (`math.hypot` is
`Real.sqrt` of the sum of squares), Python dictionaries keyed by strings are
association lists with insertion-order update semantics, and the library call
`networkx.shortest_path` (an external dependency, not code of this
repository) is modelled by enumerating all simple node sequences of the
finite graph and folding for the one of minimum summed edge weight, which is
the documented contract of that call.  Fallible steps (`try/except` around
the shortest-path query) are modelled with `Option`.  The image-processing
front end (`cv2.Canny`, `skimage.skeletonize`) consists of external
collaborators; the pipeline embedding therefore takes the skeleton those
collaborators produce, together with the pixel count of the underlying image
(`skel.size` in the source, used only as the walk step bound).
-/

namespace SkeletonPathMapping

/-- A pixel coordinate `(x, y)`, as the source's `Point = Tuple[int, int]`. -/
abbrev Point := ℤ × ℤ

/-- The 8-neighborhood of a pixel in the source's iteration order
(`get_neighbor_coords`: `dy` in the outer loop, `dx` in the inner loop,
the center excluded). -/
def get_neighbor_coords (pt : Point) : List Point :=
  [(pt.1 - 1, pt.2 - 1), (pt.1, pt.2 - 1), (pt.1 + 1, pt.2 - 1),
   (pt.1 - 1, pt.2), (pt.1 + 1, pt.2),
   (pt.1 - 1, pt.2 + 1), (pt.1, pt.2 + 1), (pt.1 + 1, pt.2 + 1)]

/-- The 8-neighborhood foreground count of a pixel (the `degrees` map in
`build_skeleton_graph`). -/
def degree (pts : Finset Point) (p : Point) : ℕ :=
  (get_neighbor_coords p).countP (fun q => decide (q ∈ pts))

/-- Node pixels: skeleton pixels whose degree is not 2
(`node_points = {pt for pt, deg in degrees.items() if deg != 2}`). -/
def node_points (pts : Finset Point) : Finset Point :=
  pts.filter (fun p => degree pts p ≠ 2)

/-- Lexicographic order on pixel coordinates: Python's `sorted` on
`(x, y)` tuples. -/
def ptLE (p q : Point) : Prop :=
  p.1 < q.1 ∨ (p.1 = q.1 ∧ p.2 ≤ q.2)

instance : DecidableRel ptLE := fun p q => by
  unfold ptLE; infer_instance

instance : IsTrans Point ptLE := by
  constructor
  intro a b c hab hbc
  rcases hab with h | ⟨h1, h2⟩ <;> rcases hbc with h' | ⟨h1', h2'⟩
  · exact Or.inl (lt_trans h h')
  · exact Or.inl (h1' ▸ h)
  · exact Or.inl (h1 ▸ h')
  · exact Or.inr ⟨h1.trans h1', le_trans h2 h2'⟩

instance : IsAntisymm Point ptLE := by
  constructor
  intro a b hab hba
  rcases hab with h | ⟨h1, h2⟩ <;> rcases hba with h' | ⟨h1', h2'⟩
  · exact absurd h' (not_lt_of_gt h)
  · exact absurd h (h1' ▸ lt_irrefl _)
  · exact absurd h' (h1 ▸ lt_irrefl _)
  · exact Prod.ext h1 (le_antisymm h2 h2')

instance : IsTotal Point ptLE := by
  constructor
  intro a b
  rcases lt_trichotomy a.1 b.1 with h | h | h
  · exact Or.inl (Or.inl h)
  · rcases le_total a.2 b.2 with h2 | h2
    · exact Or.inl (Or.inr ⟨h, h2⟩)
    · exact Or.inr (Or.inr ⟨h.symm, h2⟩)
  · exact Or.inr (Or.inl h)

/-- The node pixels in Python's `sorted(node_points)` order; the graph node
with id `i` carries `pos` equal to entry `i` of this list. -/
def nodeList (pts : Finset Point) : List Point :=
  (node_points pts).sort ptLE

/-- Euclidean norm of a planar displacement: `math.hypot`. -/
noncomputable def hypotR (x y : ℝ) : ℝ :=
  Real.sqrt (x ^ 2 + y ^ 2)

/-- Cumulative Euclidean length of consecutive points of a pixel chain (the
`length` accumulation loop of `build_skeleton_graph`). -/
noncomputable def pathLen (path : List Point) : ℝ :=
  (path.zip path.tail).foldl
    (fun acc pq =>
      acc + hypotR (((pq.2.1 : ℝ)) - ((pq.1.1 : ℝ))) (((pq.2.2 : ℝ)) - ((pq.1.2 : ℝ)))) 0

/-- A skeleton-graph edge: endpoint node ids, the accumulated Euclidean
`length`, and the ordered pixel chain, as stored by
`G.add_edge(u, v, length=..., pixels=path)`. -/
structure GEdge where
  u : ℕ
  v : ℕ
  length : ℝ
  pixels : List Point

/-- The compressed skeleton graph: `nodes` is the node positions in id order
(node id = index), `edges` the recorded edges in discovery order. -/
structure Graph where
  nodes : List Point
  edges : List GEdge

/-- Whether an edge between `u` and `v` (in either orientation) is already
recorded: `G.has_edge(u, v)` on an undirected `networkx` graph. -/
def hasEdge (es : List GEdge) (u v : ℕ) : Bool :=
  es.any (fun e => (e.u == u && e.v == v) || (e.u == v && e.v == u))

/-- The ray walk `walk_path` of `build_skeleton_graph`: from `prev = start`
into `curr`, step to the first neighbor (in `get_neighbor_coords` order) that
is a skeleton pixel other than the previous pixel, until another node pixel
is reached (success) or no step is possible or the step bound `fuel`
(`max_steps = skel.size`) is exhausted (failure, `(-1, [])` in the source). -/
def walk_path (pts : Finset Point) (nodePts : Finset Point) (start : Point) :
    ℕ → Point → Point → List Point → Option (Point × List Point)
  | 0, _, _, _ => none
  | Nat.succ fuel, prev, curr, path =>
    if curr ∈ nodePts ∧ curr ≠ start then some (curr, path)
    else
      match (get_neighbor_coords curr).find? (fun nb => !(nb == prev) && decide (nb ∈ pts)) with
      | none => none
      | some nxt => walk_path pts nodePts start fuel curr nxt (path ++ [nxt])

/-- One inner-loop step of the edge-recording phase of `build_skeleton_graph`:
for the node pixel `pt` and one neighbor coordinate `nb`, walk the ray and
record an edge unless the walk fails, the edge would be a self-loop
(`u == v`), or the vertex pair already has an edge. -/
noncomputable def addEdgeStep (pts nodePts : Finset Point) (nodeL : List Point) (size : ℕ)
    (pt : Point) (es : List GEdge) (nb : Point) : List GEdge :=
  if nb ∈ pts then
    match walk_path pts nodePts pt size pt nb [pt, nb] with
    | some endPath =>
      let u := nodeL.indexOf pt
      let v := nodeL.indexOf endPath.1
      if u = v then es
      else if hasEdge es u v then es
      else es ++ [⟨u, v, pathLen endPath.2, endPath.2⟩]
    | none => es
  else es

/-- `build_skeleton_graph`: nodes are the skeleton pixels of degree ≠ 2 in
sorted order; edges are traced by walking rays from every node pixel through
each of its skeleton neighbors.  `size` is `skel.size`, the pixel count of
the image raster, bounding each walk. -/
noncomputable def build_skeleton_graph (pts : Finset Point) (size : ℕ) : Graph :=
  let nodePts := node_points pts
  let nodeL := nodeList pts
  { nodes := nodeL
    edges := nodeL.foldl
      (fun es pt => (get_neighbor_coords pt).foldl (addEdgeStep pts nodePts nodeL size pt) es) [] }

/-- Two edges connect the same unordered vertex pair. -/
def sameUnordered (e f : GEdge) : Prop :=
  (e.u = f.u ∧ e.v = f.v) ∨ (e.u = f.v ∧ e.v = f.u)

/-- C1 (amended): a position carries a graph vertex exactly when it is a
skeleton pixel whose 8-neighborhood foreground count is not 2.  Degree-0
isolated pixels are NOT excluded: they do produce vertices. -/
theorem C1_vertex_iff (pts : Finset Point) (size : ℕ) (p : Point) :
    p ∈ (build_skeleton_graph pts size).nodes ↔ p ∈ pts ∧ degree pts p ≠ 2 := by
  simp [build_skeleton_graph, nodeList, node_points, Finset.mem_sort, Finset.mem_filter]

/-- The edge-list invariant maintained by the builder: no recorded edge is a
self-loop, and no two recorded edges connect the same unordered vertex
pair. -/
def EdgeInv (es : List GEdge) : Prop :=
  es.Forall (fun e => e.u ≠ e.v) ∧ es.Pairwise (fun e f => ¬ sameUnordered e f)

theorem hasEdge_eq_false_iff (es : List GEdge) (u v : ℕ) :
    hasEdge es u v = false ↔ ∀ e ∈ es, ¬ ((e.u = u ∧ e.v = v) ∨ (e.u = v ∧ e.v = u)) := by
  simp [hasEdge, List.any_eq_true]

theorem EdgeInv_addEdgeStep (pts nodePts : Finset Point) (nodeL : List Point) (size : ℕ)
    (pt : Point) (es : List GEdge) (nb : Point) (h : EdgeInv es) :
    EdgeInv (addEdgeStep pts nodePts nodeL size pt es nb) := by
  unfold addEdgeStep
  split
  case isFalse => exact h
  case isTrue =>
    cases hw : walk_path pts nodePts pt size pt nb [pt, nb] with
    | none => exact h
    | some endPath =>
      simp only
      split
      case isTrue => exact h
      case isFalse huv =>
        split
        case isTrue => exact h
        case isFalse hdup =>
          obtain ⟨h1, h2⟩ := h
          constructor
          · rw [List.forall_iff_forall_mem] at h1 ⊢
            intro e he
            rcases List.mem_append.1 he with he | he
            · exact h1 e he
            · simp only [List.mem_singleton] at he
              subst he
              exact huv
          · rw [List.pairwise_append]
            refine ⟨h2, List.pairwise_singleton _ _, ?_⟩
            intro e he f hf
            simp only [List.mem_singleton] at hf
            subst hf
            exact (hasEdge_eq_false_iff es _ _).1 (Bool.eq_false_iff.2 hdup) e he

/-- C5: in the graph produced by the Skeleton Graph Builder, no edge connects
a vertex to itself, and for every unordered pair of vertices at most one edge
connects them (the `u == v` and `G.has_edge(u, v)` guards make the first
discovered edge for a pair win). -/
theorem C5_no_dup_edges (pts : Finset Point) (size : ℕ) :
    (build_skeleton_graph pts size).edges.Forall (fun e => e.u ≠ e.v) ∧
    (build_skeleton_graph pts size).edges.Pairwise (fun e f => ¬ sameUnordered e f) := by
  have : EdgeInv (build_skeleton_graph pts size).edges := by
    unfold build_skeleton_graph
    simp only
    refine List.foldlRecOn _ _ _ ⟨trivial, List.Pairwise.nil⟩ ?_
    intro es hes pt _
    refine List.foldlRecOn _ _ _ hes ?_
    intro es' hes' nb _
    exact EdgeInv_addEdgeStep pts (node_points pts) (nodeList pts) size pt es' nb hes'
  exact this

/-- An externally supplied component record: optional `id` and `label`
strings (a Python `dict.get` miss is `none`) and a pixel position. -/
structure Component where
  id : Option String
  label : Option String
  x : ℝ
  y : ℝ

/-- Python's `a or b` on string-or-None values: `a` when it is a non-empty
string, otherwise `b`. -/
def pyOr (a b : Option String) : Option String :=
  match a with
  | some s => if s = "" then b else some s
  | none => b

/-- The identifier the snapper uses:
`comp_id = comp.get("id") or comp.get("label")`. -/
def Component.ident (c : Component) : Option String :=
  pyOr c.id c.label

/-- The `(node id, position)` pairs in graph iteration order
(`node_items = list(node_positions.items())`). -/
def nodeItems (G : Graph) : List (ℕ × Point) :=
  G.nodes.enum

/-- Euclidean distance from a component position to a node position
(`d = math.hypot(nxp - cx, nyp - cy)`). -/
noncomputable def nodeDist (cx cy : ℝ) (np : ℕ × Point) : ℝ :=
  hypotR (((np.2.1 : ℝ)) - cx) (((np.2.2 : ℝ)) - cy)

/-- The nearest-node scan of `snap_components_to_nodes`: fold over the node
items keeping `(best, best_dist)`, replacing the pair whenever a strictly
smaller distance is seen (`if d < best_dist`); `none` plays the role of the
initial `best = None, best_dist = inf`. -/
noncomputable def bestNode (items : List (ℕ × Point)) (cx cy : ℝ) : Option (ℕ × ℝ) :=
  items.foldl
    (fun best np =>
      match best with
      | none => some (np.1, nodeDist cx cy np)
      | some bv => if nodeDist cx cy np < bv.2 then some (np.1, nodeDist cx cy np) else some bv)
    none

/-- Python dict assignment `mapping[k] = v` on an insertion-ordered
association list: replace in place when the key exists, else append. -/
def updMap (m : List (String × ℕ)) (k : String) (v : ℕ) : List (String × ℕ) :=
  if m.any (fun p => p.1 == k) then m.map (fun p => if p.1 = k then (k, v) else p)
  else m ++ [(k, v)]

/-- One component iteration of `snap_components_to_nodes`: skip a component
with no identifier; otherwise record the nearest node when its distance is
within `max_snap`. -/
noncomputable def snapStep (items : List (ℕ × Point)) (max_snap : ℝ)
    (m : List (String × ℕ)) (comp : Component) : List (String × ℕ) :=
  match comp.ident with
  | none => m
  | some cid =>
    match bestNode items comp.x comp.y with
    | some bv => if bv.2 ≤ max_snap then updMap m cid bv.1 else m
    | none => m

/-- `snap_components_to_nodes`: fold the per-component snap over the
component list, starting from the empty mapping. -/
noncomputable def snap_components_to_nodes (components : List Component) (G : Graph)
    (max_snap : ℝ) : List (String × ℕ) :=
  components.foldl (snapStep (nodeItems G) max_snap) []

/-- The mapping outcome for a single component: `some v` exactly when the
component has an identifier and the nearest node is within `max_snap`
(the body of one `snap_components_to_nodes` iteration, as a value). -/
noncomputable def snapOne (comp : Component) (items : List (ℕ × Point)) (max_snap : ℝ) :
    Option ℕ :=
  match bestNode items comp.x comp.y with
  | some bv => if bv.2 ≤ max_snap then some bv.1 else none
  | none => none

/-- Dictionary lookup on the association-list model. -/
def lookup (m : List (String × ℕ)) (k : String) : Option ℕ :=
  (m.find? (fun p => p.1 == k)).map Prod.snd

/-- The identifiers of a component list, in order, skipping components
without one. -/
def idents (cs : List Component) : List String :=
  cs.filterMap Component.ident

/-- The key list of a mapping. -/
def keys (m : List (String × ℕ)) : List String :=
  m.map Prod.fst

theorem bestNode_append_single (items : List (ℕ × Point)) (a : ℕ × Point) (cx cy : ℝ) :
    bestNode (items ++ [a]) cx cy =
      match bestNode items cx cy with
      | none => some (a.1, nodeDist cx cy a)
      | some bv =>
        if nodeDist cx cy a < bv.2 then some (a.1, nodeDist cx cy a) else some bv := by
  unfold bestNode
  rw [List.foldl_append]
  rfl

/-- The nearest-node scan returns the first entry (in iteration order)
attaining the minimum distance: entries strictly before it are strictly
farther, and no entry is nearer. -/
theorem bestNode_spec (items : List (ℕ × Point)) (cx cy : ℝ) (h : items ≠ []) :
    ∃ pre item suf, items = pre ++ item :: suf ∧
      bestNode items cx cy = some (item.1, nodeDist cx cy item) ∧
      (∀ q ∈ items, nodeDist cx cy item ≤ nodeDist cx cy q) ∧
      (∀ q ∈ pre, nodeDist cx cy item < nodeDist cx cy q) := by
  induction items using List.reverseRecOn with
  | nil => exact absurd rfl h
  | append_singleton l a ih =>
    rcases eq_or_ne l [] with hl | hl
    · subst hl
      refine ⟨[], a, [], rfl, ?_, ?_, ?_⟩
      · rw [bestNode_append_single]
        rfl
      · intro q hq
        simp only [List.nil_append, List.mem_singleton] at hq
        subst hq
        exact le_refl _
      · intro q hq
        exact absurd hq (List.not_mem_nil q)
    · obtain ⟨pre, item, suf, heq, hbn, hmin, hpre⟩ := ih hl
      rw [bestNode_append_single, hbn]
      by_cases hlt : nodeDist cx cy a < nodeDist cx cy item
      · refine ⟨l, a, [], by simp, by simp [hlt], ?_, ?_⟩
        · intro q hq
          rcases List.mem_append.1 hq with hq | hq
          · exact le_of_lt (lt_of_lt_of_le hlt (hmin q hq))
          · simp only [List.mem_singleton] at hq
            subst hq
            exact le_refl _
        · intro q hq
          exact lt_of_lt_of_le hlt (hmin q hq)
      · refine ⟨pre, item, suf ++ [a], by rw [heq]; simp, by simp [hlt], ?_, hpre⟩
        intro q hq
        rcases List.mem_append.1 hq with hq | hq
        · exact hmin q hq
        · simp only [List.mem_singleton] at hq
          subst hq
          exact le_of_not_lt hlt

theorem lookup_cons (q : String × ℕ) (l : List (String × ℕ)) (k : String) :
    lookup (q :: l) k = if q.1 = k then some q.2 else lookup l k := by
  unfold lookup
  by_cases h : q.1 = k
  · rw [List.find?_cons_of_pos _ (by simpa using h), if_pos h]
    rfl
  · rw [List.find?_cons_of_neg _ (by simpa using h), if_neg h]

theorem lookup_map_replace_self (m : List (String × ℕ)) (k : String) (v : ℕ)
    (hex : ∃ p ∈ m, p.1 = k) :
    lookup (m.map (fun p => if p.1 = k then (k, v) else p)) k = some v := by
  induction m with
  | nil => obtain ⟨p, hp, _⟩ := hex; exact absurd hp (List.not_mem_nil p)
  | cons q rest ih =>
    by_cases hqk : q.1 = k
    · simp [lookup_cons, hqk]
    · rw [List.map_cons, if_neg hqk, lookup_cons, if_neg hqk]
      refine ih ?_
      obtain ⟨p, hp, hpk⟩ := hex
      rcases List.mem_cons.1 hp with hq | hq
      · exact absurd (hq ▸ hpk) hqk
      · exact ⟨p, hq, hpk⟩

theorem lookup_append_single_self (m : List (String × ℕ)) (k : String) (v : ℕ)
    (hno : ∀ p ∈ m, ¬ p.1 = k) :
    lookup (m ++ [(k, v)]) k = some v := by
  induction m with
  | nil => simp [lookup_cons]
  | cons q rest ih =>
    have hqk : ¬ q.1 = k := hno q (List.mem_cons_self q rest)
    rw [List.cons_append, lookup_cons, if_neg hqk]
    exact ih fun p hp => hno p (List.mem_cons_of_mem q hp)

theorem lookup_map_replace_ne (m : List (String × ℕ)) (k k' : String) (v : ℕ) (h : k' ≠ k) :
    lookup (m.map (fun p => if p.1 = k then (k, v) else p)) k' = lookup m k' := by
  induction m with
  | nil => rfl
  | cons q rest ih =>
    by_cases hqk : q.1 = k
    · have hq' : ¬ q.1 = k' := fun hk => h (hk.symm.trans hqk)
      rw [List.map_cons, if_pos hqk, lookup_cons, lookup_cons, if_neg hq',
        if_neg (fun hk => h hk.symm)]
      exact ih
    · rw [List.map_cons, if_neg hqk, lookup_cons, lookup_cons]
      by_cases hq' : q.1 = k'
      · rw [if_pos hq', if_pos hq']
      · rw [if_neg hq', if_neg hq']
        exact ih

theorem lookup_append_single_ne (m : List (String × ℕ)) (k k' : String) (v : ℕ) (h : k' ≠ k) :
    lookup (m ++ [(k, v)]) k' = lookup m k' := by
  induction m with
  | nil =>
    rw [List.nil_append, lookup_cons, if_neg (fun hk => h hk.symm)]
  | cons q rest ih =>
    rw [List.cons_append, lookup_cons, lookup_cons]
    by_cases hq' : q.1 = k'
    · rw [if_pos hq', if_pos hq']
    · rw [if_neg hq', if_neg hq']
      exact ih

theorem lookup_updMap_self (m : List (String × ℕ)) (k : String) (v : ℕ) :
    lookup (updMap m k v) k = some v := by
  unfold updMap
  split
  case isTrue hany =>
    refine lookup_map_replace_self m k v ?_
    simpa [List.any_eq_true] using hany
  case isFalse hany =>
    refine lookup_append_single_self m k v ?_
    intro p hp hpk
    refine hany ?_
    rw [List.any_eq_true]
    exact ⟨p, hp, by simpa using hpk⟩

theorem lookup_updMap_ne (m : List (String × ℕ)) (k k' : String) (v : ℕ) (h : k' ≠ k) :
    lookup (updMap m k v) k' = lookup m k' := by
  unfold updMap
  split
  · exact lookup_map_replace_ne m k k' v h
  · exact lookup_append_single_ne m k k' v h

theorem lookup_snapStep_ne (items : List (ℕ × Point)) (tol : ℝ) (m : List (String × ℕ))
    (c : Component) (cid : String) (h : c.ident ≠ some cid) :
    lookup (snapStep items tol m c) cid = lookup m cid := by
  unfold snapStep
  cases hci : c.ident with
  | none => rfl
  | some cid' =>
    have hne : cid ≠ cid' := fun he => h (he ▸ hci)
    dsimp only
    cases bestNode items c.x c.y with
    | none => rfl
    | some bv =>
      dsimp only
      by_cases hb : bv.2 ≤ tol
      · rw [if_pos hb]
        exact lookup_updMap_ne m cid' cid bv.1 hne
      · rw [if_neg hb]

theorem lookup_snapFold_not_mem (items : List (ℕ × Point)) (tol : ℝ) (cs : List Component)
    (m : List (String × ℕ)) (cid : String) (h : cid ∉ idents cs) :
    lookup (cs.foldl (snapStep items tol) m) cid = lookup m cid := by
  induction cs generalizing m with
  | nil => rfl
  | cons c rest ih =>
    rw [List.foldl_cons]
    have htail : cid ∉ idents rest := by
      intro hm
      rcases List.mem_filterMap.1 hm with ⟨c', hc', hi⟩
      exact h (List.mem_filterMap.2 ⟨c', List.mem_cons_of_mem c hc', hi⟩)
    have hhead : c.ident ≠ some cid := by
      intro hi
      exact h (List.mem_filterMap.2 ⟨c, List.mem_cons_self c rest, hi⟩)
    rw [ih (snapStep items tol m c) htail]
    exact lookup_snapStep_ne items tol m c cid hhead

theorem lookup_snapFold (items : List (ℕ × Point)) (tol : ℝ) (cs : List Component)
    (m : List (String × ℕ)) (c : Component) (cid : String)
    (hnd : (idents cs).Nodup) (hc : c ∈ cs) (hid : c.ident = some cid) :
    lookup (cs.foldl (snapStep items tol) m) cid =
      match snapOne c items tol with
      | some v => some v
      | none => lookup m cid := by
  induction cs generalizing m with
  | nil => exact absurd hc (List.not_mem_nil c)
  | cons c' rest ih =>
    rw [List.foldl_cons]
    rcases List.mem_cons.1 hc with hceq | hcr
    · subst hceq
      have hlist : idents (c :: rest) = cid :: idents rest := by
        simp [idents, List.filterMap_cons, hid]
      rw [hlist] at hnd
      have hnotin : cid ∉ idents rest := (List.nodup_cons.1 hnd).1
      rw [lookup_snapFold_not_mem items tol rest _ cid hnotin]
      unfold snapStep snapOne
      rw [hid]
      dsimp only
      cases bestNode items c.x c.y with
      | none => rfl
      | some bv =>
        dsimp only
        by_cases hb : bv.2 ≤ tol
        · rw [if_pos hb, if_pos hb]
          exact lookup_updMap_self m cid bv.1
        · rw [if_neg hb, if_neg hb]
    · have hcidrest : cid ∈ idents rest := List.mem_filterMap.2 ⟨c, hcr, hid⟩
      have hnd' : (idents rest).Nodup := by
        cases hci' : c'.ident with
        | none =>
          have : idents (c' :: rest) = idents rest := by
            simp [idents, List.filterMap_cons, hci']
          rwa [this] at hnd
        | some cid' =>
          have : idents (c' :: rest) = cid' :: idents rest := by
            simp [idents, List.filterMap_cons, hci']
          rw [this] at hnd
          exact (List.nodup_cons.1 hnd).2
      have hstep : lookup (snapStep items tol m c') cid = lookup m cid := by
        refine lookup_snapStep_ne items tol m c' cid ?_
        intro hi
        cases hci' : c'.ident with
        | none => rw [hci'] at hi; exact Option.noConfusion hi
        | some cid' =>
          rw [hci'] at hi
          have : idents (c' :: rest) = cid' :: idents rest := by
            simp [idents, List.filterMap_cons, hci']
          rw [this] at hnd
          exact (List.nodup_cons.1 hnd).1 (Option.some.inj hi ▸ hcidrest)
      rw [ih (snapStep items tol m c') hnd' hcr]
      cases snapOne c items tol with
      | some v => rfl
      | none => exact hstep

theorem bestNode_nil (cx cy : ℝ) : bestNode [] cx cy = none := rfl

/-- C3: for a component with an identifier in a component list with distinct
identifiers, the snapper records a mapping for it exactly when the minimum
Euclidean distance to a vertex is within `snapTolerance`; the recorded vertex
is the first one (in vertex iteration order) attaining the minimum distance:
all vertices listed before it are strictly farther, and none is nearer. -/
theorem C3_snap_characterization (G : Graph) (tol : ℝ) (cs : List Component) (c : Component)
    (cid : String) (hnd : (idents cs).Nodup) (hc : c ∈ cs) (hid : c.ident = some cid) :
    lookup (snap_components_to_nodes cs G tol) cid = snapOne c (nodeItems G) tol ∧
    (∀ v, snapOne c (nodeItems G) tol = some v →
      ∃ pre item suf, nodeItems G = pre ++ item :: suf ∧ item.1 = v ∧
        nodeDist c.x c.y item ≤ tol ∧
        (∀ q ∈ nodeItems G, nodeDist c.x c.y item ≤ nodeDist c.x c.y q) ∧
        (∀ q ∈ pre, nodeDist c.x c.y item < nodeDist c.x c.y q)) ∧
    (snapOne c (nodeItems G) tol = none →
      ∀ q ∈ nodeItems G, tol < nodeDist c.x c.y q) := by
  refine ⟨?_, ?_, ?_⟩
  · unfold snap_components_to_nodes
    rw [lookup_snapFold (nodeItems G) tol cs [] c cid hnd hc hid]
    cases snapOne c (nodeItems G) tol with
    | some v => rfl
    | none => rfl
  · intro v hv
    unfold snapOne at hv
    cases hbn : bestNode (nodeItems G) c.x c.y with
    | none => rw [hbn] at hv; exact absurd hv (by simp)
    | some bv =>
      rw [hbn] at hv
      dsimp only at hv
      by_cases hb : bv.2 ≤ tol
      · rw [if_pos hb] at hv
        have hne : nodeItems G ≠ [] := by
          intro he
          rw [he, bestNode_nil] at hbn
          exact Option.noConfusion hbn
        obtain ⟨pre, item, suf, heq, hbn', hmin, hpre⟩ := bestNode_spec (nodeItems G) c.x c.y hne
        rw [hbn'] at hbn
        have hbv := Option.some.inj hbn
        refine ⟨pre, item, suf, heq, ?_, ?_, hmin, hpre⟩
        · rw [← Option.some.inj hv]
          exact congrArg Prod.fst hbv
        · have : bv.2 = nodeDist c.x c.y item := congrArg Prod.snd hbv.symm
          exact this ▸ hb
      · rw [if_neg hb] at hv
        exact absurd hv (by simp)
  · intro h0 q hq
    unfold snapOne at h0
    cases hbn : bestNode (nodeItems G) c.x c.y with
    | none =>
      have hne : nodeItems G ≠ [] := List.ne_nil_of_mem hq
      obtain ⟨pre, item, suf, _, hbn', _, _⟩ := bestNode_spec (nodeItems G) c.x c.y hne
      rw [hbn'] at hbn
      exact absurd hbn (by simp)
    | some bv =>
      rw [hbn] at h0
      dsimp only at h0
      by_cases hb : bv.2 ≤ tol
      · rw [if_pos hb] at h0
        exact absurd h0 (by simp)
      · have hne : nodeItems G ≠ [] := List.ne_nil_of_mem hq
        obtain ⟨pre, item, suf, _, hbn', hmin, _⟩ := bestNode_spec (nodeItems G) c.x c.y hne
        rw [hbn'] at hbn
        have hbv := Option.some.inj hbn
        have h2 : bv.2 = nodeDist c.x c.y item := congrArg Prod.snd hbv.symm
        exact lt_of_lt_of_le (h2 ▸ lt_of_not_le hb) (hmin q hq)

/-- A one-vertex graph used to instantiate theorems with hypotheses at a
concrete input. -/
def GW : Graph := ⟨[((0 : ℤ), (0 : ℤ))], []⟩

/-- A concrete component sitting exactly on the vertex of `GW`. -/
noncomputable def cW : Component := ⟨some "A", none, 0, 0⟩

theorem nodeDist_GW_zero : nodeDist cW.x cW.y ((0 : ℕ), ((0 : ℤ), (0 : ℤ))) = 0 := by
  show hypotR (((0 : ℤ) : ℝ) - cW.x) (((0 : ℤ) : ℝ) - cW.y) = 0
  unfold cW hypotR
  norm_num [Real.sqrt_zero]

theorem snapOne_cW_GW : snapOne cW (nodeItems GW) 0 = some 0 := by
  have hbn : bestNode (nodeItems GW) cW.x cW.y
      = some (0, nodeDist cW.x cW.y ((0 : ℕ), ((0 : ℤ), (0 : ℤ)))) := rfl
  unfold snapOne
  rw [hbn]
  dsimp only
  rw [nodeDist_GW_zero, if_pos (le_refl (0 : ℝ))]

/-- C3 witness: the characterization instantiated at the one-vertex graph
`GW` with the component `cW` sitting on its vertex. -/
theorem C3_snap_characterization_witness :
    lookup (snap_components_to_nodes [cW] GW 80) "A" = snapOne cW (nodeItems GW) 80 ∧
    (∀ v, snapOne cW (nodeItems GW) 80 = some v →
      ∃ pre item suf, nodeItems GW = pre ++ item :: suf ∧ item.1 = v ∧
        nodeDist cW.x cW.y item ≤ 80 ∧
        (∀ q ∈ nodeItems GW, nodeDist cW.x cW.y item ≤ nodeDist cW.x cW.y q) ∧
        (∀ q ∈ pre, nodeDist cW.x cW.y item < nodeDist cW.x cW.y q)) ∧
    (snapOne cW (nodeItems GW) 80 = none →
      ∀ q ∈ nodeItems GW, (80 : ℝ) < nodeDist cW.x cW.y q) :=
  C3_snap_characterization GW 80 [cW] cW "A" (by decide)
    (List.mem_singleton.mpr rfl) (by decide)

/-- C6: snap monotonicity.  The nearest-vertex scan does not depend on the
tolerance, so a component mapped at tolerance `t1 ≤ t2` is mapped to the same
vertex at tolerance `t2`. -/
theorem C6_snap_monotonic (G : Graph) (c : Component) (t1 t2 : ℝ) (v : ℕ)
    (h12 : t1 ≤ t2) (h1 : snapOne c (nodeItems G) t1 = some v) :
    snapOne c (nodeItems G) t2 = some v := by
  unfold snapOne at h1 ⊢
  cases hbn : bestNode (nodeItems G) c.x c.y with
  | none => rw [hbn] at h1; exact absurd h1 (by simp)
  | some bv =>
    rw [hbn] at h1
    dsimp only at h1
    dsimp only
    by_cases hb : bv.2 ≤ t1
    · rw [if_pos hb] at h1
      rw [if_pos (le_trans hb h12)]
      exact h1
    · rw [if_neg hb] at h1
      exact absurd h1 (by simp)

/-- C6 witness: the component `cW` is mapped to vertex 0 at tolerance 0,
hence also at tolerance 1. -/
theorem C6_snap_monotonic_witness : snapOne cW (nodeItems GW) 1 = some 0 :=
  C6_snap_monotonic GW cW 0 1 0 (by norm_num) snapOne_cW_GW

/-- A deterministically discovered candidate pipe, as the dict built by
`find_all_component_paths`. -/
structure Pipe where
  label : String
  source : String
  target : String
  description : String
  x : ℝ
  y : ℝ
  path_length : ℝ
  path_pixels : List Point

/-- The node ids of a graph (our graphs use ids `0 .. nodes.length - 1`). -/
def nodeIds (G : Graph) : List ℕ :=
  List.range G.nodes.length

/-- `G.get_edge_data(u, v)` on the undirected graph: the recorded edge
between `u` and `v` in either orientation, if any. -/
def findEdge (G : Graph) (u v : ℕ) : Option GEdge :=
  G.edges.find? (fun e => (e.u == u && e.v == v) || (e.u == v && e.v == u))

/-- `edge_data.get("length", 0.0)`. -/
noncomputable def edgeLength (G : Graph) (u v : ℕ) : ℝ :=
  match findEdge G u v with
  | some e => e.length
  | none => 0

/-- `edge_data.get("pixels", [])`. -/
def edgePixels (G : Graph) (u v : ℕ) : List Point :=
  match findEdge G u v with
  | some e => e.pixels
  | none => []

/-- Whether `u` and `v` are adjacent in the graph. -/
def adjacentB (G : Graph) (u v : ℕ) : Bool :=
  hasEdge G.edges u v

/-- Boolean chain predicate over consecutive list entries. -/
def chainB (f : ℕ → ℕ → Bool) : List ℕ → Bool
  | a :: b :: rest => f a b && chainB f (b :: rest)
  | _ => true

/-- A node sequence is a simple path from `u` to `v`: it starts at `u`, ends
at `v`, steps only along edges, repeats no node, and visits only nodes of the
graph (`networkx.shortest_path` returns exactly such sequences and raises
`NodeNotFound` when an endpoint is not a node). -/
def isPathB (G : Graph) (u v : ℕ) (p : List ℕ) : Bool :=
  p.head? == some u && p.getLast? == some v && chainB (adjacentB G) p &&
    decide p.Nodup && p.all (fun n => decide (n < G.nodes.length))

/-- All node sequences without repetition over the graph's node ids; the
candidate set of the shortest-path model. -/
def simpleLists (G : Graph) : List (List ℕ) :=
  (nodeIds G).sublists.flatMap List.permutations'

/-- The total weight of a node path: the edge `length` values of consecutive
node pairs summed left to right (the `total_length` accumulation of
`find_all_component_paths`). -/
noncomputable def sumLengths (G : Graph) (p : List ℕ) : ℝ :=
  (p.zip p.tail).foldl (fun acc uv => acc + edgeLength G uv.1 uv.2) 0

/-- The model of the external call
`nx.shortest_path(G, source, target, weight="length")`: among all simple
paths from `u` to `v`, one of minimum total weight (`none` when no path
exists or an endpoint is missing, where the library raises and the caller's
`except` clause skips the pair).  `spStep` keeps the lighter of two
candidates, preferring the earlier one on ties. -/
noncomputable def spStep (G : Graph) (best : Option (List ℕ)) (p : List ℕ) :
    Option (List ℕ) :=
  match best with
  | none => some p
  | some b => if sumLengths G p < sumLengths G b then some p else some b

/-- See `spStep`: the minimum-weight simple path, or `none`. -/
noncomputable def shortestPath (G : Graph) (u v : ℕ) : Option (List ℕ) :=
  ((simpleLists G).filter (isPathB G u v)).foldl (spStep G) none

/-- The pixel-chain concatenation step of `find_all_component_paths`: append
a segment's pixels, dropping its first pixel when it repeats the last pixel
accumulated so far. -/
def appendSeg (pix seg : List Point) : List Point :=
  if seg = [] then pix
  else if pix ≠ [] ∧ pix.getLast? = seg.head? then pix ++ seg.tail
  else pix ++ seg

/-- The concatenated pixel trace of a node path. -/
def concatPixels (G : Graph) (p : List ℕ) : List Point :=
  (p.zip p.tail).foldl (fun pix uv => appendSeg pix (edgePixels G uv.1 uv.2)) []

/-- Model of Python's fixed-point formatting `f"{x:.1f}"` for the
nonnegative lengths that occur here (the exact digit string of a float is a
floating-point artifact outside the embedding; only the real value matters
to every claim). -/
noncomputable def pyFormat1 (x : ℝ) : String :=
  toString ((round (10 * x) : ℤ) / 10) ++ "." ++ toString ((round (10 * x) : ℤ) % 10)

/-- The description string of a freshly created pipe. -/
noncomputable def pipeDescription (total : ℝ) : String :=
  "Geometric path via skeleton, length " ++ pyFormat1 total ++ "px"

/-- The body of one pair iteration of `find_all_component_paths`: resolve the
shortest path between the two snapped vertices; emit a pipe when the total
length is within `max_path_length` and above the `5.0` noise threshold,
otherwise (including when no path exists) emit nothing. -/
noncomputable def resolvePair (G : Graph) (max_path_length : ℝ) (a b : String × ℕ) :
    Option Pipe :=
  match shortestPath G a.2 b.2 with
  | none => none
  | some p =>
    let total := sumLengths G p
    let pix := concatPixels G p
    if total ≤ max_path_length ∧ 5 < total then
      let midIdx := if pix = [] then 0 else pix.length / 2
      let mp := if pix = [] then ((0 : ℤ), (0 : ℤ)) else pix.getD midIdx (0, 0)
      some { label := "", source := a.1, target := b.1,
             description := pipeDescription total,
             x := ((mp.1 : ℝ)), y := ((mp.2 : ℝ)),
             path_length := total, path_pixels := pix }
    else none

/-- The ordered pairs `(items[i], items[j])` with `i < j`, in the double-loop
order of `find_all_component_paths`. -/
def listPairs {α : Type} : List α → List (α × α)
  | [] => []
  | x :: xs => (xs.map (fun y => (x, y))) ++ listPairs xs

/-- `find_all_component_paths`: resolve every unordered pair of mapped
components in loop order, collecting the emitted pipes. -/
noncomputable def find_all_component_paths (G : Graph) (comp_map : List (String × ℕ))
    (max_path_length : ℝ) : List Pipe :=
  (listPairs comp_map).filterMap (fun ab => resolvePair G max_path_length ab.1 ab.2)

theorem spStep_ne_none (G : Graph) (acc : Option (List ℕ)) (p : List ℕ) :
    spStep G acc p ≠ none := by
  unfold spStep
  cases acc with
  | none => exact Option.noConfusion
  | some b =>
    dsimp only
    by_cases h : sumLengths G p < sumLengths G b
    · rw [if_pos h]; exact Option.noConfusion
    · rw [if_neg h]; exact Option.noConfusion

theorem spFold_eq_none_iff (G : Graph) (l : List (List ℕ)) (acc : Option (List ℕ)) :
    l.foldl (spStep G) acc = none ↔ acc = none ∧ l = [] := by
  induction l generalizing acc with
  | nil => simp
  | cons x xs ih =>
    rw [List.foldl_cons, ih (spStep G acc x)]
    simp [spStep_ne_none G acc x]

theorem spFold_spec (G : Graph) (l : List (List ℕ)) (acc : Option (List ℕ)) (p : List ℕ)
    (h : l.foldl (spStep G) acc = some p) :
    (p ∈ l ∨ acc = some p) ∧ (∀ q ∈ l, sumLengths G p ≤ sumLengths G q) ∧
      (∀ b, acc = some b → sumLengths G p ≤ sumLengths G b) := by
  induction l generalizing acc with
  | nil =>
    refine ⟨Or.inr h, fun q hq => absurd hq (List.not_mem_nil q), fun b hb => ?_⟩
    rw [hb] at h
    rw [Option.some.inj h]
  | cons x xs ih =>
    rw [List.foldl_cons] at h
    obtain ⟨hmem, hminxs, hacc'⟩ := ih (spStep G acc x) h
    have hstep : ∀ b, spStep G acc x = some b →
        (b = x ∨ acc = some b) ∧ sumLengths G b ≤ sumLengths G x := by
      intro b hb
      unfold spStep at hb
      cases acc with
      | none => exact ⟨Or.inl (Option.some.inj hb).symm, le_of_eq (by rw [Option.some.inj hb])⟩
      | some a =>
        dsimp only at hb
        by_cases hlt : sumLengths G x < sumLengths G a
        · rw [if_pos hlt] at hb
          exact ⟨Or.inl (Option.some.inj hb).symm, le_of_eq (by rw [Option.some.inj hb])⟩
        · rw [if_neg hlt] at hb
          exact ⟨Or.inr (by rw [Option.some.inj hb]),
            (Option.some.inj hb) ▸ le_of_not_lt hlt⟩
    have hpx : sumLengths G p ≤ sumLengths G x := by
      cases hsx : spStep G acc x with
      | none => exact absurd hsx (spStep_ne_none G acc x)
      | some b => exact le_trans (hacc' b hsx) (hstep b hsx).2
    refine ⟨?_, ?_, ?_⟩
    · rcases hmem with hm | hm
      · exact Or.inl (List.mem_cons_of_mem x hm)
      · rcases (hstep p hm).1 with he | he
        · exact Or.inl (he ▸ List.mem_cons_self x xs)
        · exact Or.inr he
    · intro q hq
      rcases List.mem_cons.1 hq with he | hq'
      · exact he ▸ hpx
      · exact hminxs q hq'
    · intro b hb
      cases hsx : spStep G acc x with
      | none => exact absurd hsx (spStep_ne_none G acc x)
      | some b' =>
        refine le_trans (hacc' b' hsx) ?_
        unfold spStep at hsx
        rw [hb] at hsx
        dsimp only at hsx
        by_cases hlt : sumLengths G x < sumLengths G b
        · rw [if_pos hlt] at hsx
          exact (Option.some.inj hsx) ▸ le_of_lt hlt
        · rw [if_neg hlt] at hsx
          exact le_of_eq (congrArg (sumLengths G) (Option.some.inj hsx).symm)

theorem mem_simpleLists_of_isPath (G : Graph) (u v : ℕ) (q : List ℕ)
    (h : isPathB G u v q = true) : q ∈ simpleLists G := by
  unfold isPathB at h
  simp only [Bool.and_eq_true, decide_eq_true_eq, List.all_eq_true] at h
  obtain ⟨⟨⟨⟨_, _⟩, _⟩, hnd⟩, hall⟩ := h
  have hsub : q ⊆ nodeIds G := by
    intro n hn
    rw [nodeIds, List.mem_range]
    exact hall n hn
  obtain ⟨t, htq, hts⟩ := hnd.subperm hsub
  unfold simpleLists
  rw [List.mem_flatMap]
  exact ⟨t, List.mem_sublists.2 hts, List.mem_permutations'.2 htq.symm⟩

/-- The resolved path is a genuine simple path and is of minimum total
weight among all simple paths between the endpoints. -/
theorem shortestPath_spec (G : Graph) (u v : ℕ) (p : List ℕ)
    (h : shortestPath G u v = some p) :
    isPathB G u v p = true ∧
      ∀ q, isPathB G u v q = true → sumLengths G p ≤ sumLengths G q := by
  unfold shortestPath at h
  have hs := spFold_spec G _ none p h
  constructor
  · rcases hs.1 with hmem | hacc
    · exact (List.mem_filter.1 hmem).2
    · exact absurd hacc (by simp)
  · intro q hq
    exact hs.2.1 q (List.mem_filter.2 ⟨mem_simpleLists_of_isPath G u v q hq, hq⟩)

/-- C2: a CandidatePipe is emitted for a pair of snapped vertices if and only
if a (simple) path between them exists in the graph and the resolved
shortest path's total length is at most `maxPathLength` and above the `5.0`
noise threshold; otherwise the pair contributes nothing, and since the model
is a total function the `except`-guarded query lets no exception escape.
The third conjunct ties the per-pair statement to the full resolver. -/
theorem C2_pipe_emission (G : Graph) (maxLen : ℝ) (a b : String × ℕ) :
    ((resolvePair G maxLen a b).isSome ↔
      ∃ p, shortestPath G a.2 b.2 = some p ∧
        sumLengths G p ≤ maxLen ∧ 5 < sumLengths G p) ∧
    ((shortestPath G a.2 b.2).isSome ↔ ∃ q, isPathB G a.2 b.2 q = true) ∧
    (∀ m, find_all_component_paths G m maxLen =
      (listPairs m).filterMap (fun ab => resolvePair G maxLen ab.1 ab.2)) := by
  refine ⟨?_, ?_, fun m => rfl⟩
  · unfold resolvePair
    cases hsp : shortestPath G a.2 b.2 with
    | none => simp
    | some p =>
      dsimp only
      by_cases hcond : sumLengths G p ≤ maxLen ∧ 5 < sumLengths G p
      · rw [if_pos hcond]
        exact iff_of_true (by simp) ⟨p, rfl, hcond.1, hcond.2⟩
      · rw [if_neg hcond]
        refine iff_of_false (by simp) ?_
        rintro ⟨q, hq1, hq2, hq3⟩
        have hpq : p = q := Option.some.inj hq1
        exact hcond ⟨hpq.symm ▸ hq2, hpq.symm ▸ hq3⟩
  · rw [← Option.ne_none_iff_isSome]
    unfold shortestPath
    constructor
    · intro hne
      have hl : (simpleLists G).filter (isPathB G a.2 b.2) ≠ [] := by
        intro hnil
        exact hne ((spFold_eq_none_iff G _ none).2 ⟨rfl, hnil⟩)
      rcases List.exists_mem_of_ne_nil _ hl with ⟨q, hq⟩
      exact ⟨q, (List.mem_filter.1 hq).2⟩
    · rintro ⟨q, hq⟩ hnone
      have hnil := ((spFold_eq_none_iff G _ none).1 hnone).2
      have hmem : q ∈ (simpleLists G).filter (isPathB G a.2 b.2) :=
        List.mem_filter.2 ⟨mem_simpleLists_of_isPath G a.2 b.2 q hq, hq⟩
      rw [hnil] at hmem
      exact List.not_mem_nil q hmem

theorem listPairs_subset {α : Type} (l : List α) (ab : α × α) (h : ab ∈ listPairs l) :
    ab.1 ∈ l ∧ ab.2 ∈ l := by
  induction l with
  | nil => exact absurd h (List.not_mem_nil ab)
  | cons x xs ih =>
    unfold listPairs at h
    rcases List.mem_append.1 h with hm | hm
    · rcases List.mem_map.1 hm with ⟨y, hy, he⟩
      rw [← he]
      exact ⟨List.mem_cons_self x xs, List.mem_cons_of_mem x hy⟩
    · obtain ⟨h1, h2⟩ := ih hm
      exact ⟨List.mem_cons_of_mem x h1, List.mem_cons_of_mem x h2⟩

theorem foldl_add_eq_sum (f : ℕ × ℕ → ℝ) (l : List (ℕ × ℕ)) (acc : ℝ) :
    l.foldl (fun a uv => a + f uv) acc = acc + (l.map f).sum := by
  induction l generalizing acc with
  | nil => simp
  | cons x xs ih => simp [List.foldl_cons, ih, add_assoc]

theorem sumLengths_eq_map_sum (G : Graph) (p : List ℕ) :
    sumLengths G p = ((p.zip p.tail).map (fun uv => edgeLength G uv.1 uv.2)).sum := by
  unfold sumLengths
  rw [foldl_add_eq_sum, zero_add]

/-- C4: every emitted pipe's `path_length` is the sum of the `length`
attributes of the graph edges along the resolved path, that path is a
genuine simple path of minimum total weight between the two snapped vertices
of the pair, and the pipe's `(x, y)` is the pixel at the midpoint index of
the concatenated pixel trace of that path. -/
theorem C4_pipe_geometry (G : Graph) (m : List (String × ℕ)) (maxLen : ℝ) (pipe : Pipe)
    (hmem : pipe ∈ find_all_component_paths G m maxLen) :
    ∃ u v p, ((pipe.source, u) ∈ m ∧ (pipe.target, v) ∈ m) ∧
      shortestPath G u v = some p ∧ isPathB G u v p = true ∧
      (∀ q, isPathB G u v q = true → sumLengths G p ≤ sumLengths G q) ∧
      pipe.path_length = ((p.zip p.tail).map (fun uv => edgeLength G uv.1 uv.2)).sum ∧
      pipe.path_pixels = concatPixels G p ∧
      pipe.x = ((((concatPixels G p).getD ((concatPixels G p).length / 2) (0, 0)).1 : ℝ)) ∧
      pipe.y = ((((concatPixels G p).getD ((concatPixels G p).length / 2) (0, 0)).2 : ℝ)) := by
  unfold find_all_component_paths at hmem
  rcases List.mem_filterMap.1 hmem with ⟨ab, hab, hres⟩
  obtain ⟨h1, h2⟩ := listPairs_subset m ab hab
  unfold resolvePair at hres
  cases hsp : shortestPath G ab.1.2 ab.2.2 with
  | none => rw [hsp] at hres; exact Option.noConfusion hres
  | some p =>
    rw [hsp] at hres
    dsimp only at hres
    by_cases hcond : sumLengths G p ≤ maxLen ∧ 5 < sumLengths G p
    · rw [if_pos hcond] at hres
      obtain ⟨hiP, hmin⟩ := shortestPath_spec G ab.1.2 ab.2.2 p hsp
      have hp := Option.some.inj hres
      subst hp
      refine ⟨ab.1.2, ab.2.2, p, ⟨?_, ?_⟩, hsp, hiP, hmin,
        sumLengths_eq_map_sum G p, rfl, ?_, ?_⟩
      · show ((ab.1.1, ab.1.2) ∈ m)
        rw [Prod.mk.eta]
        exact h1
      · show ((ab.2.1, ab.2.2) ∈ m)
        rw [Prod.mk.eta]
        exact h2
      · show ((if concatPixels G p = [] then ((0 : ℤ), (0 : ℤ))
            else (concatPixels G p).getD
              (if concatPixels G p = [] then 0 else (concatPixels G p).length / 2)
              (0, 0)).1 : ℝ) = _
        by_cases hpix : concatPixels G p = []
        · rw [if_pos hpix, hpix]
          rfl
        · rw [if_neg hpix, if_neg hpix]
      · show ((if concatPixels G p = [] then ((0 : ℤ), (0 : ℤ))
            else (concatPixels G p).getD
              (if concatPixels G p = [] then 0 else (concatPixels G p).length / 2)
              (0, 0)).2 : ℝ) = _
        by_cases hpix : concatPixels G p = []
        · rw [if_pos hpix, hpix]
          rfl
        · rw [if_neg hpix, if_neg hpix]
    · rw [if_neg hcond] at hres
      exact Option.noConfusion hres

/-- A two-vertex graph with one edge of length 7 traced by an 8-pixel
horizontal chain; used only to instantiate theorems at concrete inputs. -/
def pts8 : List Point :=
  [((0 : ℤ), (0 : ℤ)), (1, 0), (2, 0), (3, 0), (4, 0), (5, 0), (6, 0), (7, 0)]

/-- See `pts8`. -/
noncomputable def Gex : Graph :=
  ⟨[((0 : ℤ), (0 : ℤ)), ((7 : ℤ), (0 : ℤ))], [⟨0, 1, 7, pts8⟩]⟩

/-- A mapping snapping component "A" to vertex 0 and "B" to vertex 1. -/
def mEx : List (String × ℕ) := [("A", 0), ("B", 1)]

/-- The pipe the resolver emits for `Gex` and `mEx`. -/
noncomputable def pipeEx : Pipe :=
  { label := "", source := "A", target := "B",
    description := pipeDescription (sumLengths Gex [0, 1]),
    x := (((4 : ℤ) : ℝ)), y := (((0 : ℤ) : ℝ)),
    path_length := sumLengths Gex [0, 1], path_pixels := pts8 }

theorem resolvePair_Gex : resolvePair Gex 100 ("A", 0) ("B", 1) = some pipeEx := by
  have hsp : shortestPath Gex 0 1 = some [0, 1] := by rfl
  unfold resolvePair
  dsimp only
  rw [hsp]
  dsimp only
  rw [if_pos ?hc]
  case hc =>
    rw [show sumLengths Gex [0, 1] = 0 + 7 from rfl]
    norm_num
  rfl

theorem find_all_Gex : find_all_component_paths Gex mEx 100 = [pipeEx] := by
  unfold find_all_component_paths
  rw [show listPairs mEx = [(("A", 0), ("B", 1))] from rfl]
  simp only [List.filterMap_cons, List.filterMap_nil]
  rw [show resolvePair Gex 100 (("A", 0), ("B", 1)).1 (("A", 0), ("B", 1)).2
      = some pipeEx from resolvePair_Gex]

/-- C4 witness: the geometry characterization instantiated at the concrete
graph `Gex`, mapping `mEx` and emitted pipe `pipeEx`. -/
theorem C4_pipe_geometry_witness :
    ∃ u v p, ((pipeEx.source, u) ∈ mEx ∧ (pipeEx.target, v) ∈ mEx) ∧
      shortestPath Gex u v = some p ∧ isPathB Gex u v p = true ∧
      (∀ q, isPathB Gex u v q = true → sumLengths Gex p ≤ sumLengths Gex q) ∧
      pipeEx.path_length = ((p.zip p.tail).map (fun uv => edgeLength Gex uv.1 uv.2)).sum ∧
      pipeEx.path_pixels = concatPixels Gex p ∧
      pipeEx.x = ((((concatPixels Gex p).getD ((concatPixels Gex p).length / 2) (0, 0)).1 : ℝ)) ∧
      pipeEx.y = ((((concatPixels Gex p).getD ((concatPixels Gex p).length / 2) (0, 0)).2 : ℝ)) :=
  C4_pipe_geometry Gex mEx 100 pipeEx
    (by rw [find_all_Gex]; exact List.mem_singleton.mpr rfl)

/-- An externally supplied OCR item: text and a bounding quadrilateral (an
absent or empty bbox is falsy in the source and the item is skipped). -/
structure OCRItem where
  text : String
  bbox : List (ℝ × ℝ)

/-- The bbox centroid: coordinate sums divided by 4
(`cx = sum(p[0] for p in bbox) / 4.0`, same for `cy`). -/
noncomputable def centroid (bbox : List (ℝ × ℝ)) : ℝ × ℝ :=
  ((bbox.map Prod.fst).sum / 4, (bbox.map Prod.snd).sum / 4)

/-- The distance from an OCR item's bbox centroid to a point
(`d = math.hypot(cx - px, cy - py)`). -/
noncomputable def itemDist (it : OCRItem) (px py : ℝ) : ℝ :=
  hypotR ((centroid it.bbox).1 - px) ((centroid it.bbox).2 - py)

/-- The candidate-collection loop of `associate_labels_to_pipes`: items with
a non-empty bbox whose centroid is within `proximity` of `(px, py)`, paired
with their distance, in OCR order. -/
noncomputable def candidatesFor (ocr : List OCRItem) (proximity : ℝ) (px py : ℝ) :
    List (ℝ × OCRItem) :=
  ocr.foldl
    (fun cands item =>
      if item.bbox = [] then cands
      else
        if itemDist item px py ≤ proximity then cands ++ [(itemDist item px py, item)]
        else cands)
    []

/-- Sorting key of `candidates.sort(key=lambda x: x[0])`. -/
def distLE (a b : ℝ × OCRItem) : Prop :=
  a.1 ≤ b.1

noncomputable instance : DecidableRel distLE :=
  fun _ _ => Classical.propDecidable _

instance : IsTotal (ℝ × OCRItem) distLE :=
  ⟨fun a b => le_total a.1 b.1⟩

instance : IsTrans (ℝ × OCRItem) distLE :=
  ⟨fun _ _ _ h1 h2 => le_trans h1 h2⟩

/-- One pipe iteration of `associate_labels_to_pipes`: when candidates exist,
sort them by distance, concatenate the texts of the nearest two into the
label (separator " / ") and append the same texts to the description;
otherwise leave the pipe untouched. -/
noncomputable def annotateOne (ocr : List OCRItem) (proximity : ℝ) (pipe : Pipe) : Pipe :=
  let cands := candidatesFor ocr proximity pipe.x pipe.y
  if cands.isEmpty then pipe
  else
    let sorted := List.insertionSort distLE cands
    let topTexts := (sorted.take 2).map (fun c => c.2.text)
    { pipe with
      label := String.intercalate " / " topTexts,
      description := pipe.description ++ " | OCR labels: " ++ String.intercalate ", " topTexts }

/-- `associate_labels_to_pipes` (the source mutates the pipe dicts in place;
the embedding returns the updated list). -/
noncomputable def associate_labels_to_pipes (pipes : List Pipe) (ocr_items : List OCRItem)
    (proximity : ℝ) : List Pipe :=
  pipes.map (annotateOne ocr_items proximity)

/-- The run's output: the components list passed through, the generated
pipes, and the constant metadata method tag. -/
structure PnidOut where
  components : List Component
  pipes : List Pipe
  method : String

/-- `generate_pnid_from_skeleton`, from the skeleton onward: the grayscale
loading, Canny edge detection and `skimage` thinning are external
collaborators, so the embedding takes the skeleton `pts` they produce and
`size`, the pixel count of the raster (`skel.size`).  The OCR association
uses the source's hard-coded proximity `40.0`. -/
noncomputable def generate_pnid_from_skeleton (pts : Finset Point) (size : ℕ)
    (components : List Component) (ocr_items : List OCRItem)
    (snap_threshold max_path_length : ℝ) : PnidOut :=
  let G := build_skeleton_graph pts size
  let comp_map := snap_components_to_nodes components G snap_threshold
  let pipes0 := find_all_component_paths G comp_map max_path_length
  let pipes := associate_labels_to_pipes pipes0 ocr_items 40.0
  { components := components, pipes := pipes, method := "skeleton-mapping" }

/-- C9: the components list in the pipeline output is the input components
list unmodified.  The embedding is purely functional, so the pass-through
equality also witnesses that no stage mutates the component records: the
snapper only reads them, and the only in-place mutation of the source (the
Label Annotator updating pipes) is modelled by returning a new pipes list
while `components` is returned verbatim; the second conjunct shows that this
one mutation touches only `label` and `description`, leaving every
upstream-derived pipe field intact. -/
theorem C9_components_passthrough (pts : Finset Point) (size : ℕ)
    (components : List Component) (ocr_items : List OCRItem)
    (snap_threshold max_path_length : ℝ) :
    (generate_pnid_from_skeleton pts size components ocr_items snap_threshold
      max_path_length).components = components ∧
    ∀ pipe,
      (annotateOne ocr_items 40.0 pipe).source = pipe.source ∧
      (annotateOne ocr_items 40.0 pipe).target = pipe.target ∧
      (annotateOne ocr_items 40.0 pipe).x = pipe.x ∧
      (annotateOne ocr_items 40.0 pipe).y = pipe.y ∧
      (annotateOne ocr_items 40.0 pipe).path_length = pipe.path_length ∧
      (annotateOne ocr_items 40.0 pipe).path_pixels = pipe.path_pixels := by
  refine ⟨rfl, fun pipe => ?_⟩
  unfold annotateOne
  dsimp only
  split
  · exact ⟨rfl, rfl, rfl, rfl, rfl, rfl⟩
  · exact ⟨rfl, rfl, rfl, rfl, rfl, rfl⟩

/-- C10: a component whose `id` and `label` are both absent is silently
skipped by the snapper — removing it from the component list changes the
produced mapping (and hence every downstream pipe) not at all, and no error
is raised since the embedding is total; and a component with an absent or
falsy (empty) `id` but a present `label` is identified by its label. -/
theorem C10_missing_ident (G : Graph) (tol : ℝ) (cs1 cs2 : List Component) (c : Component) :
    (c.id = none → c.label = none →
      snap_components_to_nodes (cs1 ++ c :: cs2) G tol =
        snap_components_to_nodes (cs1 ++ cs2) G tol) ∧
    (∀ maxLen, c.id = none → c.label = none →
      find_all_component_paths G (snap_components_to_nodes (cs1 ++ c :: cs2) G tol) maxLen =
        find_all_component_paths G (snap_components_to_nodes (cs1 ++ cs2) G tol) maxLen) ∧
    (∀ l, (c.id = none ∨ c.id = some "") → c.label = some l → c.ident = some l) := by
  have hskip : c.id = none → c.label = none →
      snap_components_to_nodes (cs1 ++ c :: cs2) G tol =
        snap_components_to_nodes (cs1 ++ cs2) G tol := by
    intro hid hlab
    unfold snap_components_to_nodes
    rw [List.foldl_append, List.foldl_append, List.foldl_cons]
    have hident : c.ident = none := by
      unfold Component.ident pyOr
      rw [hid, hlab]
    have hstep : snapStep (nodeItems G) tol (List.foldl (snapStep (nodeItems G) tol) [] cs1) c
        = List.foldl (snapStep (nodeItems G) tol) [] cs1 := by
      unfold snapStep
      rw [hident]
    rw [hstep]
  refine ⟨hskip, ?_, ?_⟩
  · intro maxLen hid hlab
    rw [hskip hid hlab]
  · intro l hid hlab
    unfold Component.ident pyOr
    rcases hid with h | h
    · rw [h, hlab]
    · rw [h, hlab]
      simp

theorem keys_updMap_iff (m : List (String × ℕ)) (k k' : String) (v : ℕ) :
    k' ∈ keys (updMap m k v) ↔ k' ∈ keys m ∨ k' = k := by
  unfold updMap
  split
  case isTrue hany =>
    have hkeq : keys (m.map (fun p => if p.1 = k then (k, v) else p)) = keys m := by
      unfold keys
      rw [List.map_map]
      refine List.map_congr_left ?_
      intro p _
      by_cases h : p.1 = k
      · simp [h]
      · simp [h]
    rw [hkeq]
    constructor
    · exact Or.inl
    · rintro (h | h)
      · exact h
      · subst h
        simp only [List.any_eq_true, beq_iff_eq] at hany
        obtain ⟨p, hp, hpk⟩ := hany
        exact hpk ▸ List.mem_map.2 ⟨p, hp, rfl⟩
  case isFalse hany =>
    unfold keys
    rw [List.map_append]
    simp [List.mem_append]

theorem keys_snapFold (items : List (ℕ × Point)) (tol : ℝ) (cs : List Component)
    (m : List (String × ℕ)) (cid : String)
    (h : cid ∈ keys (cs.foldl (snapStep items tol) m)) :
    cid ∈ keys m ∨ ∃ c ∈ cs, c.ident = some cid ∧ snapOne c items tol ≠ none := by
  induction cs generalizing m with
  | nil => exact Or.inl h
  | cons c rest ih =>
    rw [List.foldl_cons] at h
    rcases ih (snapStep items tol m c) h with hm | hex
    · unfold snapStep at hm
      cases hci : c.ident with
      | none => rw [hci] at hm; exact Or.inl hm
      | some cid' =>
        rw [hci] at hm
        dsimp only at hm
        cases hbn : bestNode items c.x c.y with
        | none => rw [hbn] at hm; exact Or.inl hm
        | some bv =>
          rw [hbn] at hm
          dsimp only at hm
          by_cases hb : bv.2 ≤ tol
          · rw [if_pos hb] at hm
            rcases (keys_updMap_iff m cid' cid bv.1).1 hm with h1 | h1
            · exact Or.inl h1
            · refine Or.inr ⟨c, List.mem_cons_self c rest, h1.symm ▸ hci, ?_⟩
              unfold snapOne
              rw [hbn]
              dsimp only
              rw [if_pos hb]
              exact Option.noConfusion
          · rw [if_neg hb] at hm
            exact Or.inl hm
    · obtain ⟨c', hc', hi', hs'⟩ := hex
      exact Or.inr ⟨c', List.mem_cons_of_mem c hc', hi', hs'⟩

theorem pipe_endpoints_in_keys (G : Graph) (m : List (String × ℕ)) (maxLen : ℝ)
    (pipe : Pipe) (h : pipe ∈ find_all_component_paths G m maxLen) :
    pipe.source ∈ keys m ∧ pipe.target ∈ keys m := by
  unfold find_all_component_paths at h
  rcases List.mem_filterMap.1 h with ⟨ab, hab, hres⟩
  obtain ⟨h1, h2⟩ := listPairs_subset m ab hab
  unfold resolvePair at hres
  cases hsp : shortestPath G ab.1.2 ab.2.2 with
  | none => rw [hsp] at hres; exact Option.noConfusion hres
  | some p =>
    rw [hsp] at hres
    dsimp only at hres
    by_cases hcond : sumLengths G p ≤ maxLen ∧ 5 < sumLengths G p
    · rw [if_pos hcond] at hres
      have hp := Option.some.inj hres
      subst hp
      exact ⟨List.mem_map.2 ⟨ab.1, h1, rfl⟩, List.mem_map.2 ⟨ab.2, h2, rfl⟩⟩
    · rw [if_neg hcond] at hres
      exact Option.noConfusion hres

theorem annotateOne_endpoints (ocr : List OCRItem) (prox : ℝ) (pipe : Pipe) :
    (annotateOne ocr prox pipe).source = pipe.source ∧
    (annotateOne ocr prox pipe).target = pipe.target := by
  unfold annotateOne
  dsimp only
  split
  · exact ⟨rfl, rfl⟩
  · exact ⟨rfl, rfl⟩

/-- C7 (amended): a component whose nearest vertex is farther than
`snapTolerance` does not abort the run (the pipeline is a total function);
it is passed through unchanged in the output components and is referenced by
no pipe as source or target.  It is, however, silently omitted from the
mapping: the output carries no count or list of unmapped components (see the
counterexample). -/
theorem C7_unmapped_component (pts : Finset Point) (size : ℕ) (cs : List Component)
    (ocr : List OCRItem) (tol maxLen : ℝ) (c : Component) (cid : String)
    (hc : c ∈ cs) (hid : c.ident = some cid)
    (hunm : snapOne c (nodeItems (build_skeleton_graph pts size)) tol = none)
    (huniq : ∀ c' ∈ cs, c'.ident = some cid → c' = c) :
    c ∈ (generate_pnid_from_skeleton pts size cs ocr tol maxLen).components ∧
    ∀ pipe ∈ (generate_pnid_from_skeleton pts size cs ocr tol maxLen).pipes,
      pipe.source ≠ cid ∧ pipe.target ≠ cid := by
  constructor
  · exact hc
  · intro pipe hpipe
    have hkey : cid ∉ keys (snap_components_to_nodes cs (build_skeleton_graph pts size) tol) := by
      intro hmem
      unfold snap_components_to_nodes at hmem
      rcases keys_snapFold (nodeItems (build_skeleton_graph pts size)) tol cs [] cid hmem with
        h0 | ⟨c', hc', hi', hs'⟩
      · exact List.not_mem_nil cid h0
      · exact hs' (huniq c' hc' hi' ▸ hunm)
    rcases List.mem_map.1 hpipe with ⟨pipe0, hpipe0, hann⟩
    obtain ⟨hsrc, htgt⟩ := annotateOne_endpoints ocr 40.0 pipe0
    obtain ⟨hks, hkt⟩ := pipe_endpoints_in_keys (build_skeleton_graph pts size)
      (snap_components_to_nodes cs (build_skeleton_graph pts size) tol) maxLen pipe0 hpipe0
    constructor
    · rw [← hann, hsrc]
      intro he
      exact hkey (he ▸ hks)
    · rw [← hann, htgt]
      intro he
      exact hkey (he ▸ hkt)

theorem hypotR_eval (x y r : ℝ) (hr : 0 ≤ r) (h : x ^ 2 + y ^ 2 = r ^ 2) :
    hypotR x y = r := by
  unfold hypotR
  rw [h, Real.sqrt_sq hr]

/-- A one-pixel skeleton whose graph has a single vertex at the origin. -/
def ptsW : Finset Point := {((0 : ℤ), (0 : ℤ))}

/-- A component 10 pixels away from the only vertex of `ptsW`'s graph. -/
noncomputable def cW7 : Component := ⟨some "A", none, 10, 0⟩

theorem build_ptsW_nodes : (build_skeleton_graph ptsW 1).nodes = [((0 : ℤ), (0 : ℤ))] := by
  show nodeList ptsW = [((0 : ℤ), (0 : ℤ))]
  unfold nodeList
  rw [show node_points ptsW = {((0 : ℤ), (0 : ℤ))} by decide]
  exact Finset.sort_singleton ptLE ((0 : ℤ), (0 : ℤ))

theorem nodeDist_cW7 : nodeDist cW7.x cW7.y ((0 : ℕ), ((0 : ℤ), (0 : ℤ))) = 10 := by
  show hypotR (((0 : ℤ) : ℝ) - cW7.x) (((0 : ℤ) : ℝ) - cW7.y) = 10
  refine hypotR_eval _ _ 10 (by norm_num) ?_
  unfold cW7
  norm_num

theorem bestNode_cW7 : bestNode (nodeItems (build_skeleton_graph ptsW 1)) cW7.x cW7.y
    = some (0, nodeDist cW7.x cW7.y ((0 : ℕ), ((0 : ℤ), (0 : ℤ)))) := by
  unfold nodeItems
  rw [build_ptsW_nodes]
  rfl

theorem snapOne_cW7_unmapped :
    snapOne cW7 (nodeItems (build_skeleton_graph ptsW 1)) 5 = none := by
  unfold snapOne
  rw [bestNode_cW7]
  dsimp only
  rw [nodeDist_cW7, if_neg (by norm_num)]

/-- C7 witness: the amended statement instantiated at the one-vertex graph of
`ptsW` and the component `cW7`, which is 10 pixels away with tolerance 5. -/
theorem C7_unmapped_component_witness :
    cW7 ∈ (generate_pnid_from_skeleton ptsW 1 [cW7] [] 5 100).components ∧
    ∀ pipe ∈ (generate_pnid_from_skeleton ptsW 1 [cW7] [] 5 100).pipes,
      pipe.source ≠ "A" ∧ pipe.target ≠ "A" :=
  C7_unmapped_component ptsW 1 [cW7] [] 5 100 cW7 "A"
    (List.mem_singleton.mpr rfl) (by decide) snapOne_cW7_unmapped
    (fun c' hc' _ => List.eq_of_mem_singleton hc')

theorem snap_cW7_20 :
    snap_components_to_nodes [cW7] (build_skeleton_graph ptsW 1) 20 = [("A", 0)] := by
  unfold snap_components_to_nodes
  rw [List.foldl_cons, List.foldl_nil]
  unfold snapStep
  rw [show cW7.ident = some "A" by decide]
  dsimp only
  rw [bestNode_cW7]
  dsimp only
  rw [nodeDist_cW7, if_pos (by norm_num)]
  rfl

theorem snap_cW7_5 :
    snap_components_to_nodes [cW7] (build_skeleton_graph ptsW 1) 5 = [] := by
  unfold snap_components_to_nodes
  rw [List.foldl_cons, List.foldl_nil]
  unfold snapStep
  rw [show cW7.ident = some "A" by decide]
  dsimp only
  rw [bestNode_cW7]
  dsimp only
  rw [nodeDist_cW7, if_neg (by norm_num)]

/-- C7 counterexample: the same run with tolerance 20 (component mapped) and
tolerance 5 (component unmapped) produces IDENTICAL outputs, so the output
surfaces no count or list of unmapped components — a component with no
vertex in range is silently omitted from the mapping, contradicting the
claim that it is surfaced in the run's output. -/
theorem C7_counterexample :
    snap_components_to_nodes [cW7] (build_skeleton_graph ptsW 1) 20 = [("A", 0)] ∧
    snap_components_to_nodes [cW7] (build_skeleton_graph ptsW 1) 5 = [] ∧
    generate_pnid_from_skeleton ptsW 1 [cW7] [] 20 100 =
      generate_pnid_from_skeleton ptsW 1 [cW7] [] 5 100 := by
  refine ⟨snap_cW7_20, snap_cW7_5, ?_⟩
  unfold generate_pnid_from_skeleton
  dsimp only
  rw [snap_cW7_20, snap_cW7_5]
  rfl

/-- The OCR items the claim calls matched: non-empty bbox, centroid within
`prox` of the point. -/
noncomputable def matchedItems (ocr : List OCRItem) (prox px py : ℝ) : List OCRItem :=
  ocr.filter (fun it => !decide (it.bbox = []) && decide (itemDist it px py ≤ prox))

theorem candidatesFor_eq_aux (prox px py : ℝ) (ocr : List OCRItem)
    (acc : List (ℝ × OCRItem)) :
    ocr.foldl
      (fun cands item =>
        if item.bbox = [] then cands
        else
          if itemDist item px py ≤ prox then cands ++ [(itemDist item px py, item)]
          else cands) acc
    = acc ++ (matchedItems ocr prox px py).map (fun it => (itemDist it px py, it)) := by
  induction ocr generalizing acc with
  | nil => simp [matchedItems]
  | cons it rest ih =>
    rw [List.foldl_cons]
    unfold matchedItems
    rw [List.filter_cons]
    by_cases hb : it.bbox = []
    · rw [if_pos hb]
      have hcnd : (!decide (it.bbox = []) && decide (itemDist it px py ≤ prox)) = false := by
        simp [hb]
      rw [hcnd]
      simp only [Bool.false_eq_true, if_false]
      exact ih acc
    · rw [if_neg hb]
      by_cases hd : itemDist it px py ≤ prox
      · rw [if_pos hd]
        have hcnd : (!decide (it.bbox = []) && decide (itemDist it px py ≤ prox)) = true := by
          simp [hb, hd]
        rw [hcnd]
        simp only [if_true]
        rw [ih (acc ++ [(itemDist it px py, it)])]
        simp [matchedItems]
      · rw [if_neg hd]
        have hcnd : (!decide (it.bbox = []) && decide (itemDist it px py ≤ prox)) = false := by
          simp [hb, hd]
        rw [hcnd]
        simp only [Bool.false_eq_true, if_false]
        exact ih acc

theorem candidatesFor_eq (ocr : List OCRItem) (prox px py : ℝ) :
    candidatesFor ocr prox px py =
      (matchedItems ocr prox px py).map (fun it => (itemDist it px py, it)) := by
  unfold candidatesFor
  rw [candidatesFor_eq_aux prox px py ocr []]
  rfl

/-- C8 (amended): the annotator keeps exactly the OCR items with a non-empty
bbox whose centroid is within `proximity` of the pipe midpoint; it sets the
label to the " / "-concatenation of the texts of the two nearest matched
items (sorted ascending by distance) and appends the SAME two texts — not
all matched texts, and without distances — to the description; a pipe with
no matched item is returned untouched. -/
theorem C8_label_annotation (ocr : List OCRItem) (prox : ℝ) (pipe : Pipe) :
    (matchedItems ocr prox pipe.x pipe.y = [] → annotateOne ocr prox pipe = pipe) ∧
    (matchedItems ocr prox pipe.x pipe.y ≠ [] →
      ∃ sorted : List (ℝ × OCRItem),
        sorted.Perm ((matchedItems ocr prox pipe.x pipe.y).map
          (fun it => (itemDist it pipe.x pipe.y, it))) ∧
        sorted.Sorted distLE ∧
        (annotateOne ocr prox pipe).label =
          String.intercalate " / " ((sorted.take 2).map (fun cand => cand.2.text)) ∧
        (annotateOne ocr prox pipe).description =
          pipe.description ++ " | OCR labels: " ++
            String.intercalate ", " ((sorted.take 2).map (fun cand => cand.2.text)) ∧
        (annotateOne ocr prox pipe).source = pipe.source ∧
        (annotateOne ocr prox pipe).target = pipe.target) ∧
    (∀ pipes, associate_labels_to_pipes pipes ocr prox = pipes.map (annotateOne ocr prox)) := by
  have hc := candidatesFor_eq ocr prox pipe.x pipe.y
  refine ⟨?_, ?_, fun pipes => rfl⟩
  · intro hm
    unfold annotateOne
    rw [hc, hm]
    rfl
  · intro hm
    have hne : (candidatesFor ocr prox pipe.x pipe.y).isEmpty = false := by
      rw [hc]
      cases hmm : matchedItems ocr prox pipe.x pipe.y with
      | nil => exact absurd hmm hm
      | cons a l => rfl
    refine ⟨List.insertionSort distLE (candidatesFor ocr prox pipe.x pipe.y),
      ?_, List.sorted_insertionSort distLE _, ?_, ?_,
      (annotateOne_endpoints ocr prox pipe).1, (annotateOne_endpoints ocr prox pipe).2⟩
    · rw [← hc]
      exact List.perm_insertionSort distLE _
    · unfold annotateOne
      dsimp only
      rw [hne]
      rfl
    · unfold annotateOne
      dsimp only
      rw [hne]
      rfl

/-- A pipe at the origin with description "D"; three OCR items whose bbox
centroids sit 1, 2 and 3 pixels from its midpoint. -/
noncomputable def pipeC : Pipe := ⟨"", "S", "T", "D", 0, 0, 10, []⟩

/-- See `pipeC`. -/
noncomputable def itA : OCRItem := ⟨"TAGA", [(1, 0), (1, 0), (1, 0), (1, 0)]⟩

/-- See `pipeC`. -/
noncomputable def itB : OCRItem := ⟨"TAGB", [(2, 0), (2, 0), (2, 0), (2, 0)]⟩

/-- See `pipeC`. -/
noncomputable def itC : OCRItem := ⟨"TAGC", [(3, 0), (3, 0), (3, 0), (3, 0)]⟩

theorem itemDist_itA : itemDist itA pipeC.x pipeC.y = 1 := by
  unfold itemDist centroid itA pipeC
  refine hypotR_eval _ _ 1 (by norm_num) ?_
  norm_num

theorem itemDist_itB : itemDist itB pipeC.x pipeC.y = 2 := by
  unfold itemDist centroid itB pipeC
  refine hypotR_eval _ _ 2 (by norm_num) ?_
  norm_num

theorem itemDist_itC : itemDist itC pipeC.x pipeC.y = 3 := by
  unfold itemDist centroid itC pipeC
  refine hypotR_eval _ _ 3 (by norm_num) ?_
  norm_num

theorem candidatesFor_C8 :
    candidatesFor [itA, itB, itC] 40 pipeC.x pipeC.y =
      [(((1 : ℝ)), itA), (((2 : ℝ)), itB), (((3 : ℝ)), itC)] := by
  unfold candidatesFor
  simp only [List.foldl_cons, List.foldl_nil]
  rw [if_neg (show ¬ itA.bbox = [] by simp [itA]),
    if_pos (show itemDist itA pipeC.x pipeC.y ≤ 40 by rw [itemDist_itA]; norm_num),
    if_neg (show ¬ itB.bbox = [] by simp [itB]),
    if_pos (show itemDist itB pipeC.x pipeC.y ≤ 40 by rw [itemDist_itB]; norm_num),
    if_neg (show ¬ itC.bbox = [] by simp [itC]),
    if_pos (show itemDist itC pipeC.x pipeC.y ≤ 40 by rw [itemDist_itC]; norm_num)]
  rw [itemDist_itA, itemDist_itB, itemDist_itC]
  simp

theorem sort_C8 :
    List.insertionSort distLE [(((1 : ℝ)), itA), (((2 : ℝ)), itB), (((3 : ℝ)), itC)] =
      [(((1 : ℝ)), itA), (((2 : ℝ)), itB), (((3 : ℝ)), itC)] := by
  have h3 : List.orderedInsert distLE (((3 : ℝ)), itC) [] = [(((3 : ℝ)), itC)] := rfl
  have h2 : List.orderedInsert distLE (((2 : ℝ)), itB) [(((3 : ℝ)), itC)]
      = [(((2 : ℝ)), itB), (((3 : ℝ)), itC)] := by
    simp only [List.orderedInsert]
    rw [if_pos (show distLE (((2 : ℝ)), itB) (((3 : ℝ)), itC) by unfold distLE; norm_num)]
  have h1 : List.orderedInsert distLE (((1 : ℝ)), itA) [(((2 : ℝ)), itB), (((3 : ℝ)), itC)]
      = [(((1 : ℝ)), itA), (((2 : ℝ)), itB), (((3 : ℝ)), itC)] := by
    simp only [List.orderedInsert]
    rw [if_pos (show distLE (((1 : ℝ)), itA) (((2 : ℝ)), itB) by unfold distLE; norm_num)]
  show List.orderedInsert distLE (((1 : ℝ)), itA)
      (List.orderedInsert distLE (((2 : ℝ)), itB)
        (List.orderedInsert distLE (((3 : ℝ)), itC) [])) = _
  rw [h3, h2, h1]

theorem annotate_C8 :
    associate_labels_to_pipes [pipeC] [itA, itB, itC] 40 =
      [{ pipeC with
          label := "TAGA / TAGB"
          description := "D" ++ " | OCR labels: " ++ "TAGA, TAGB" }] := by
  unfold associate_labels_to_pipes
  rw [List.map_cons, List.map_nil]
  unfold annotateOne
  dsimp only
  rw [candidatesFor_C8]
  rw [show ([(((1 : ℝ)), itA), (((2 : ℝ)), itB), (((3 : ℝ)), itC)]).isEmpty = false from rfl]
  rw [sort_C8]
  rfl

/-- C8 counterexample: with three OCR items at distances 1, 2 and 3 (all
within proximity 40) of the pipe's midpoint, the produced description is
exactly "D | OCR labels: TAGA, TAGB": the text of the third matched item
does not occur in it and no distances are appended, contradicting the claim
that all matched texts together with their distances are appended to the
description. -/
theorem C8_counterexample :
    (associate_labels_to_pipes [pipeC] [itA, itB, itC] 40).map Pipe.description =
      ["D | OCR labels: TAGA, TAGB"] ∧
    itC.bbox ≠ [] ∧
    itemDist itC pipeC.x pipeC.y ≤ 40 ∧
    ¬ List.IsInfix ("TAGC".toList) (("D | OCR labels: TAGA, TAGB").toList) := by
  refine ⟨?_, by simp [itC], by rw [itemDist_itC]; norm_num, by decide⟩
  rw [annotate_C8]
  rfl

/-- C1 counterexample: a skeleton consisting of one isolated pixel `(0, 0)`
(8-neighborhood degree 0) produces a graph vertex at `(0, 0)`, contradicting
the claim that degree-0 pixels produce no vertex. -/
theorem C1_counterexample :
    degree {((0 : ℤ), (0 : ℤ))} ((0 : ℤ), (0 : ℤ)) = 0 ∧
    ((0 : ℤ), (0 : ℤ)) ∈ (build_skeleton_graph {((0 : ℤ), (0 : ℤ))} 1).nodes := by
  constructor
  · decide
  · simp [build_skeleton_graph, nodeList, node_points, Finset.mem_sort, Finset.mem_filter]
    decide

end SkeletonPathMapping
